import Mathlib

/-!
Verification of the metadata storage layer (metanode/btree_rocks.go).

Bytes are modelled as lists of natural numbers (each entry a byte value);
the embedded ordered key-value store is modelled as an association list
kept sorted strictly ascending in the Go bytes.Compare order, which is how
RocksDB presents keys to an iterator.
-/

namespace BtreeRocks

/-- Er models the Go error type: errors are just distinguishable values here. -/
abbrev Er := String

/-- bytesCompare mirrors Go bytes.Compare: lexicographic order on byte
sequences, with a proper prefix ordered before its extensions. -/
def bytesCompare : List Nat → List Nat → Ordering
  | [], [] => .eq
  | [], _ :: _ => .lt
  | _ :: _, [] => .gt
  | a :: as, b :: bs =>
    if a < b then .lt else if b < a then .gt else bytesCompare as bs

theorem bytesCompare_self (a : List Nat) : bytesCompare a a = .eq := by
  induction a with
  | nil => rfl
  | cons x xs ih => simp [bytesCompare, ih]

theorem bytesCompare_eq_iff {a b : List Nat} :
    bytesCompare a b = .eq ↔ a = b := by
  induction a generalizing b with
  | nil => cases b <;> simp [bytesCompare]
  | cons x xs ih =>
    cases b with
    | nil => simp [bytesCompare]
    | cons y ys =>
      by_cases hxy : x < y
      · simp [bytesCompare, hxy]
        intro h; omega
      · by_cases hyx : y < x
        · simp [bytesCompare, hxy, hyx]
          intro h; omega
        · have hxy' : x = y := by omega
          simp [bytesCompare, hxy, hyx, hxy', ih]

theorem bytesCompare_swap (a b : List Nat) :
    bytesCompare a b = .lt ↔ bytesCompare b a = .gt := by
  induction a generalizing b with
  | nil => cases b <;> simp [bytesCompare]
  | cons x xs ih =>
    cases b with
    | nil => simp [bytesCompare]
    | cons y ys =>
      by_cases hxy : x < y
      · have : ¬ y < x := by omega
        simp [bytesCompare, hxy, this]
      · by_cases hyx : y < x
        · simp [bytesCompare, hxy, hyx]
        · simp [bytesCompare, hxy, hyx, ih]

theorem bytesCompare_lt_trans {a b c : List Nat}
    (hab : bytesCompare a b = .lt) (hbc : bytesCompare b c = .lt) :
    bytesCompare a c = .lt := by
  induction a generalizing b c with
  | nil =>
    cases b with
    | nil => simp [bytesCompare] at hab
    | cons y ys => cases c <;> simp [bytesCompare] at hbc ⊢
  | cons x xs ih =>
    cases b with
    | nil => simp [bytesCompare] at hab
    | cons y ys =>
      cases c with
      | nil => simp [bytesCompare] at hbc
      | cons z zs =>
        by_cases hxy : x < y <;> by_cases hyz : y < z
        · have hxz : x < z := by omega
          simp [bytesCompare, hxz]
        · have hzy : ¬ z < y := by
            intro h
            simp [bytesCompare, hyz, h] at hbc
          have hxz : x < z := by omega
          simp [bytesCompare, hxz]
        · have hyx : ¬ y < x := by
            intro h
            simp [bytesCompare, hxy, h] at hab
          have hxz : x < z := by omega
          simp [bytesCompare, hxz]
        · have hyx : ¬ y < x := by
            intro h
            simp [bytesCompare, hxy, h] at hab
          have hzy : ¬ z < y := by
            intro h
            simp [bytesCompare, hyz, h] at hbc
          have hxz : ¬ x < z := by omega
          have hzx : ¬ z < x := by omega
          have hxy' : x = y := by omega
          simp [bytesCompare, hxy, hyx] at hab
          simp [bytesCompare, hyz, hzy] at hbc
          simp [bytesCompare, hxz, hzx]
          exact ih hab hbc

theorem bytesCompare_irrefl {a b : List Nat}
    (h : bytesCompare a b = .lt) : a ≠ b := by
  intro he
  subst he
  rw [bytesCompare_self] at h
  exact Ordering.noConfusion h

theorem bytesCompare_append {p a b : List Nat} :
    bytesCompare (p ++ a) (p ++ b) = bytesCompare a b := by
  induction p with
  | nil => rfl
  | cons x xs ih => simp [bytesCompare, ih]

/-- A key extending s is never strictly below s in the bytes.Compare order. -/
theorem not_lt_of_isPrefixOf {s k : List Nat}
    (h : s.isPrefixOf k = true) : bytesCompare k s ≠ .lt := by
  induction s generalizing k with
  | nil =>
    cases k <;> simp [bytesCompare]
  | cons x xs ih =>
    cases k with
    | nil => simp [List.isPrefixOf] at h
    | cons y ys =>
      simp only [List.isPrefixOf_cons₂, Bool.and_eq_true, beq_iff_eq] at h
      obtain ⟨hxy, htl⟩ := h
      subst hxy
      simp [bytesCompare]
      exact ih htl

/-- Once the iterator passes a key k at or above s that does not extend s,
every key z that does extend s lies strictly below k: the block of keys
with prefix s is contiguous and ends before k. -/
theorem lt_of_isPrefixOf_of_not {s k z : List Nat}
    (hk : bytesCompare k s ≠ .lt) (hnp : s.isPrefixOf k = false)
    (hz : s.isPrefixOf z = true) : bytesCompare z k = .lt := by
  induction s generalizing k z with
  | nil => simp [List.isPrefixOf] at hnp
  | cons x xs ih =>
    cases k with
    | nil =>
      exfalso
      exact hk (by simp [bytesCompare])
    | cons y ys =>
      cases z with
      | nil => simp [List.isPrefixOf] at hz
      | cons w ws =>
        simp only [List.isPrefixOf_cons₂, Bool.and_eq_true, beq_iff_eq] at hz
        obtain ⟨hw, hz'⟩ := hz
        subst hw
        by_cases hxy : x = y
        · subst hxy
          simp only [List.isPrefixOf_cons₂, beq_self_eq_true, Bool.true_and] at hnp
          have hk' : bytesCompare ys xs ≠ .lt := by
            intro hlt
            apply hk
            simp [bytesCompare, hlt]
          simp [bytesCompare]
          exact ih hk' hnp hz'
        · have hyx : ¬ y < x := by
            intro hlt
            apply hk
            simp [bytesCompare, hlt, Nat.ne_of_gt hlt]
          have hxy' : x < y := by omega
          simp [bytesCompare, hxy']

/-- be8 models binary.BigEndian.PutUint64 filling an 8-byte slice: the
eight bytes of the 64-bit value, most significant first.  Taking each
byte as n / 2 ^ s % 256 agrees with the Go uint64 semantics for every
natural n. -/
def be8 (n : Nat) : List Nat :=
  [n / 2 ^ 56 % 256, n / 2 ^ 48 % 256, n / 2 ^ 40 % 256, n / 2 ^ 32 % 256,
   n / 2 ^ 24 % 256, n / 2 ^ 16 % 256, n / 2 ^ 8 % 256, n % 256]

/-- beDigits k n lists the k lowest base-256 digits of n, most
significant first. -/
def beDigits : Nat → Nat → List Nat
  | 0, _ => []
  | k + 1, n => n / 256 ^ k % 256 :: beDigits k n

theorem be8_eq_beDigits (n : Nat) : be8 n = beDigits 8 n := by
  simp only [be8, beDigits]
  norm_num

theorem beDigits_lt {k a b : Nat} (hab : a < b)
    (hq : a / 256 ^ k = b / 256 ^ k) :
    bytesCompare (beDigits k a) (beDigits k b) = .lt := by
  induction k generalizing a b with
  | zero =>
    simp at hq
    omega
  | succ k ih =>
    have hdiv : a / 256 ^ k / 256 = b / 256 ^ k / 256 := by
      rw [Nat.div_div_eq_div_mul, Nat.div_div_eq_div_mul, ← pow_succ, hq]
    have hle : a / 256 ^ k ≤ b / 256 ^ k := Nat.div_le_div_right (Nat.le_of_lt hab)
    have hmodle : a / 256 ^ k % 256 ≤ b / 256 ^ k % 256 := by omega
    by_cases hm : a / 256 ^ k % 256 < b / 256 ^ k % 256
    · simp [beDigits, bytesCompare, hm]
    · have heq : a / 256 ^ k = b / 256 ^ k := by omega
      have hlt : ¬ b / 256 ^ k % 256 < a / 256 ^ k % 256 := by omega
      simp [beDigits, bytesCompare, hm, hlt]
      exact ih hab heq

theorem be8_lt {a b : Nat} (hab : a < b) (hb : b < 2 ^ 64) :
    bytesCompare (be8 a) (be8 b) = .lt := by
  rw [be8_eq_beDigits, be8_eq_beDigits]
  apply beDigits_lt hab
  have ha0 : a / 256 ^ 8 = 0 := Nat.div_eq_of_lt (by norm_num; omega)
  have hb0 : b / 256 ^ 8 = 0 := Nat.div_eq_of_lt (by norm_num; omega)
  rw [ha0, hb0]

/-- Db models the contents of the embedded ordered key-value store: an
association list from encoded keys to values.  RocksDB yields keys to an
iterator sorted ascending, so the list is kept sorted strictly ascending
in bytesCompare order; DbSorted states that invariant. -/
abbrev Db := List (List Nat × List Nat)

def DbSorted (db : Db) : Prop :=
  db.Pairwise (fun a b => bytesCompare a.1 b.1 = Ordering.lt)

instance (db : Db) : Decidable (DbSorted db) := by
  unfold DbSorted
  infer_instance

/-- dbGet models a RocksDB point lookup. -/
def dbGet (key : List Nat) : Db → Option (List Nat)
  | [] => none
  | (k, v) :: rest => if bytesCompare key k = .eq then some v else dbGet key rest

/-- dbPut models a RocksDB put: replace the value when the key is present,
otherwise insert at the sorted position. -/
def dbPut (key value : List Nat) : Db → Db
  | [] => [(key, value)]
  | (k, v) :: rest =>
    match bytesCompare key k with
    | .lt => (key, value) :: (k, v) :: rest
    | .eq => (key, value) :: rest
    | .gt => (k, v) :: dbPut key value rest

/-- dbDelete models a RocksDB delete of a single key. -/
def dbDelete (key : List Nat) : Db → Db
  | [] => []
  | (k, v) :: rest =>
    if bytesCompare key k = .eq then rest else (k, v) :: dbDelete key rest

theorem dbGet_dbPut_self (key value : List Nat) (db : Db) :
    dbGet key (dbPut key value db) = some value := by
  induction db with
  | nil => simp [dbPut, dbGet, bytesCompare_self]
  | cons kv rest ih =>
    obtain ⟨k, v⟩ := kv
    rcases h : bytesCompare key k with h1 | h1 | h1 <;>
      simp [dbPut, h, dbGet, bytesCompare_self, ih]

theorem dbGet_dbPut_ne {key k' : List Nat} (value : List Nat) (db : Db)
    (hne : k' ≠ key) : dbGet k' (dbPut key value db) = dbGet k' db := by
  induction db with
  | nil =>
    have : bytesCompare k' key ≠ .eq := fun h => hne (bytesCompare_eq_iff.mp h)
    simp [dbPut, dbGet, this]
  | cons kv rest ih =>
    obtain ⟨k, v⟩ := kv
    have hne' : bytesCompare k' key ≠ .eq := fun h => hne (bytesCompare_eq_iff.mp h)
    rcases h : bytesCompare key k with h1 | h1 | h1
    · simp [dbPut, h, dbGet, hne']
    · have : key = k := bytesCompare_eq_iff.mp h
      subst this
      simp [dbPut, h, dbGet, hne']
    · simp [dbPut, h, dbGet, ih]

theorem dbGet_dbDelete_ne {key k' : List Nat} (db : Db)
    (hne : k' ≠ key) : dbGet k' (dbDelete key db) = dbGet k' db := by
  induction db with
  | nil => simp [dbDelete]
  | cons kv rest ih =>
    obtain ⟨k, v⟩ := kv
    by_cases h : bytesCompare key k = .eq
    · have : key = k := bytesCompare_eq_iff.mp h
      subst this
      have hne' : bytesCompare k' key ≠ .eq := fun hh => hne (bytesCompare_eq_iff.mp hh)
      simp [dbDelete, h, dbGet, hne']
    · simp [dbDelete, h, dbGet, ih]

theorem dbGet_eq_none_of_forall {key : List Nat} {db : Db}
    (h : ∀ kv ∈ db, kv.1 ≠ key) : dbGet key db = none := by
  induction db with
  | nil => rfl
  | cons kv rest ih =>
    obtain ⟨k, v⟩ := kv
    have hk : k ≠ key := h (k, v) (List.mem_cons_self _ _)
    have : bytesCompare key k ≠ .eq := fun hh => hk (bytesCompare_eq_iff.mp hh).symm
    simp [dbGet, this]
    exact ih (fun kv hm => h kv (List.mem_cons_of_mem _ hm))

theorem dbGet_dbDelete_self {key : List Nat} {db : Db}
    (hs : DbSorted db) : dbGet key (dbDelete key db) = none := by
  induction db with
  | nil => rfl
  | cons kv rest ih =>
    obtain ⟨k, v⟩ := kv
    rw [DbSorted, List.pairwise_cons] at hs
    obtain ⟨hall, hrest⟩ := hs
    by_cases h : bytesCompare key k = .eq
    · have : key = k := bytesCompare_eq_iff.mp h
      subst this
      simp [dbDelete, h]
      exact dbGet_eq_none_of_forall (fun kv hm =>
        fun he => bytesCompare_irrefl (hall kv hm) (he ▸ rfl))
    · simp [dbDelete, h, dbGet]
      exact ih hrest

/-- Modelled from the spec: the collection tag type and its four values
are declared in another file of the repository.  The spec fixes them to
be distinct single-byte discriminators, non-maximal so that tag plus one
is a valid boundary; they are fixed here to 1, 2, 3, 4 in declaration
order (Inode, Dentry, Extend, Multipart). -/
abbrev TreeType := Nat

def InodeType : TreeType := 1

def DentryType : TreeType := 2

def ExtendType : TreeType := 3

def MultipartType : TreeType := 4

/-- Modelled from the spec: applyIDKey, the reserved single key holding
the 8-byte big-endian apply index, lies outside the four collection tag
ranges; its declaration is in another file of the repository.  It is
fixed here to the one-byte key 255. -/
def applyIDKey : List Nat := [255]

/-- Modelled from the spec: existsError is the stable AlreadyExists error
signal returned by create on an occupied key; its declaration is in
another file of the repository. -/
def existsError : Er := "error: key exists"

/-- RocksTree models the Storage Core state: the store contents and the
in-memory apply index (currentApplyID). -/
structure RocksTree where
  db : Db
  currentApplyID : Nat

def RocksTree.SetApplyID (r : RocksTree) (id : Nat) : RocksTree :=
  { r with currentApplyID := id }

/-- GetBytes models db.GetBytes: a missing key yields a nil slice, here
the empty list. -/
def RocksTree.GetBytes (r : RocksTree) (key : List Nat) : List Nat :=
  (dbGet key r.db).getD []

/-- HasKey mirrors the source: defined as GetBytes returning a non-empty
result. -/
def RocksTree.HasKey (r : RocksTree) (key : List Nat) : Bool :=
  decide (0 < (r.GetBytes key).length)

/-- dbWrite applies a write batch to the store in one step: the batch
commits atomically, entries in order. -/
def dbWrite (db : Db) (batch : List (List Nat × List Nat)) : Db :=
  batch.foldl (fun d kv => dbPut kv.1 kv.2 d) db

/-- Put mirrors RocksTree.Put in the source: one write batch holding the
data write and the 8-byte big-endian image of the current in-memory
apply index under applyIDKey, committed by a single db.Write. -/
def RocksTree.Put (r : RocksTree) (key value : List Nat) : RocksTree :=
  { r with db := dbWrite r.db [(key, value), (applyIDKey, be8 r.currentApplyID)] }

/-- rangeIterLoop models the loop body of RangeWithIter after the initial
seek: the gorocksdb iterator is valid for the prefix start only while the
current key extends start; iteration breaks when end compares below the
key; the callback may stop the scan or raise an error, which is returned
with the callback state accumulated so far. -/
def rangeIterLoop {σ : Type} (cb : σ → List Nat → σ × Bool × Option Er)
    (start endB : List Nat) : Db → σ → σ × Option Er
  | [], s => (s, none)
  | (k, v) :: rest, s =>
    if start.isPrefixOf k then
      if bytesCompare endB k = .lt then (s, none)
      else
        match cb s v with
        | (s', _, some e) => (s', some e)
        | (s', true, none) => rangeIterLoop cb start endB rest s'
        | (s', false, none) => (s', none)
    else (s, none)

/-- dbSeek models it.Seek(start): position the iterator at the first key
not below start (the store list is sorted ascending). -/
def dbSeek (start : List Nat) (db : Db) : Db :=
  db.dropWhile (fun kv => decide (bytesCompare kv.1 start = Ordering.lt))

/-- RangeWithIter mirrors the source: seek to start, then run the
iteration loop. -/
def RocksTree.RangeWithIter {σ : Type} (_r : RocksTree) (it : Db)
    (start endB : List Nat) (cb : σ → List Nat → σ × Bool × Option Er)
    (s0 : σ) : σ × Option Er :=
  rangeIterLoop cb start endB (dbSeek start it) s0

/-- RangeWithSnap mirrors the source: an iterator over the given snapshot
is handed to RangeWithIter. -/
def RocksTree.RangeWithSnap {σ : Type} (r : RocksTree) (snapshot : Db)
    (start endB : List Nat) (cb : σ → List Nat → σ × Bool × Option Er)
    (s0 : σ) : σ × Option Er :=
  r.RangeWithIter snapshot start endB cb s0

/-- Range mirrors the source: a fresh snapshot of the current state is
scanned. -/
def RocksTree.Range {σ : Type} (r : RocksTree) (start endB : List Nat)
    (cb : σ → List Nat → σ × Bool × Option Er) (s0 : σ) : σ × Option Er :=
  r.RangeWithSnap r.db start endB cb s0

/-- RocksSnapShot models the immutable snapshot view: the captured store
contents plus the handle back to the tree. -/
structure RocksSnapShot where
  snap : Db
  tree : RocksTree

/-- Range on a snapshot mirrors the source: the bounds are the one-byte
collection tag and the tag incremented as a byte. -/
def RocksSnapShot.Range {σ : Type} (r : RocksSnapShot) (tp : TreeType)
    (cb : σ → List Nat → σ × Bool × Option Er) (s0 : σ) : σ × Option Er :=
  r.tree.RangeWithSnap r.snap [tp % 256] [(tp % 256 + 1) % 256] cb s0

/-- countCb is the counting closure RocksSnapShot.Count drives Range
with: it increments, always continues and never errors. -/
def countCb : Nat → List Nat → Nat × Bool × Option Er :=
  fun count _ => (count + 1, true, none)

/-- Count on a snapshot mirrors the source: the counting callback drives
Range; on a scan error the count returned is 0 together with the error. -/
def RocksSnapShot.Count (r : RocksSnapShot) (tp : TreeType) : Nat × Option Er :=
  let res := r.Range tp countCb 0
  match res.2 with
  | some e => (0, some e)
  | none => (res.1, none)

/-- inodeEncodingKey mirrors the source.  bytes.NewBuffer(make([]byte, 9))
seeds the buffer with nine zero bytes of initial content (make yields a
length-9 zero slice and NewBuffer takes it as contents, not capacity);
the tag byte and the 8-byte big-endian identifier are appended after
them. -/
def inodeEncodingKey (ino : Nat) : List Nat :=
  List.replicate 9 0 ++ [InodeType] ++ be8 ino

/-- dentryEncodingKey mirrors the source: 9 + len(name) zero bytes of
initial buffer content, then the tag byte, the 8-byte big-endian parent
identifier and the raw name bytes. -/
def dentryEncodingKey (parentId : Nat) (name : List Nat) : List Nat :=
  List.replicate (9 + name.length) 0 ++ [DentryType] ++ be8 parentId ++ name

/-- extendEncodingKey mirrors the source: nine zero bytes of initial
buffer content, then the tag byte and the 8-byte big-endian identifier. -/
def extendEncodingKey (ino : Nat) : List Nat :=
  List.replicate 9 0 ++ [ExtendType] ++ be8 ino

/-- multipartEncodingKey mirrors the source: the buffer starts with
len(key) + len(id) zero bytes of initial content; binary.Write is then
invoked on a plain int, which encoding/binary rejects as an invalid type,
so it writes no bytes and its error is discarded, leaving no length
field; the upload key bytes and upload id bytes follow the tag byte. -/
def multipartEncodingKey (key id : List Nat) : List Nat :=
  List.replicate (key.length + id.length) 0 ++ [MultipartType] ++ key ++ id

/-- Modelled from the spec: domain records are opaque to the storage core
beyond a deterministic byte serialization; the Inode declaration lives in
another file of the repository.  Only the identifier and the serialized
image matter here. -/
structure Inode where
  inode : Nat
  marshalBytes : List Nat

def Inode.Marshal (i : Inode) : List Nat := i.marshalBytes

/-- Modelled from the spec: the Dentry record, keyed by parent identifier
and name; declared in another file of the repository. -/
structure Dentry where
  ParentId : Nat
  Name : List Nat
  marshalBytes : List Nat

def Dentry.Marshal (d : Dentry) : List Nat := d.marshalBytes

/-- Modelled from the spec: the Extend record, keyed by owning inode;
declared in another file of the repository. -/
structure Extend where
  inode : Nat
  bytesData : List Nat

def Extend.Bytes (e : Extend) : List Nat := e.bytesData

/-- Modelled from the spec: the Multipart record, keyed by upload key and
upload id; declared in another file of the repository. -/
structure Multipart where
  key : List Nat
  id : List Nat
  bytesData : List Nat

def Multipart.Bytes (m : Multipart) : List Nat := m.bytesData

/-- InodeRocks, the typed facade over the shared tree. -/
structure InodeRocks where
  tree : RocksTree

structure DentryRocks where
  tree : RocksTree

structure ExtendRocks where
  tree : RocksTree

structure MultipartRocks where
  tree : RocksTree

def InodeRocks.Put (b : InodeRocks) (inode : Inode) : InodeRocks :=
  { tree := b.tree.Put (inodeEncodingKey inode.inode) inode.Marshal }

def DentryRocks.Put (b : DentryRocks) (dentry : Dentry) : DentryRocks :=
  { tree := b.tree.Put (dentryEncodingKey dentry.ParentId dentry.Name) dentry.Marshal }

def ExtendRocks.Put (b : ExtendRocks) (ext : Extend) : ExtendRocks :=
  { tree := b.tree.Put (extendEncodingKey ext.inode) ext.Bytes }

def MultipartRocks.Put (b : MultipartRocks) (mul : Multipart) : MultipartRocks :=
  { tree := b.tree.Put (multipartEncodingKey mul.key mul.id) mul.Bytes }

/-- Create mirrors the source: check HasKey first, answer existsError on
a hit, otherwise marshal and delegate to the tree Put. -/
def InodeRocks.Create (b : InodeRocks) (inode : Inode) : InodeRocks × Option Er :=
  let key := inodeEncodingKey inode.inode
  if b.tree.HasKey key then (b, some existsError)
  else ({ tree := b.tree.Put key inode.Marshal }, none)

def DentryRocks.Create (b : DentryRocks) (dentry : Dentry) : DentryRocks × Option Er :=
  let key := dentryEncodingKey dentry.ParentId dentry.Name
  if b.tree.HasKey key then (b, some existsError)
  else ({ tree := b.tree.Put key dentry.Marshal }, none)

def ExtendRocks.Create (b : ExtendRocks) (ext : Extend) : ExtendRocks × Option Er :=
  let key := extendEncodingKey ext.inode
  if b.tree.HasKey key then (b, some existsError)
  else ({ tree := b.tree.Put key ext.Bytes }, none)

def MultipartRocks.Create (b : MultipartRocks) (mul : Multipart) : MultipartRocks × Option Er :=
  let key := multipartEncodingKey mul.key mul.id
  if b.tree.HasKey key then (b, some existsError)
  else ({ tree := b.tree.Put key mul.Bytes }, none)

/-- Delete mirrors the source: a direct db.Delete of the encoded key, not
a batch, and no apply-index write. -/
def InodeRocks.Delete (b : InodeRocks) (ino : Nat) : InodeRocks :=
  { tree := { b.tree with db := dbDelete (inodeEncodingKey ino) b.tree.db } }

def DentryRocks.Delete (b : DentryRocks) (pid : Nat) (name : List Nat) : DentryRocks :=
  { tree := { b.tree with db := dbDelete (dentryEncodingKey pid name) b.tree.db } }

def ExtendRocks.Delete (b : ExtendRocks) (ino : Nat) : ExtendRocks :=
  { tree := { b.tree with db := dbDelete (extendEncodingKey ino) b.tree.db } }

def MultipartRocks.Delete (b : MultipartRocks) (key id : List Nat) : MultipartRocks :=
  { tree := { b.tree with db := dbDelete (multipartEncodingKey key id) b.tree.db } }

/-- inodeRangeEndKey mirrors the endByte computation of InodeRocks.Range:
with end absent the bound is the Inode tag incremented as a byte. -/
def inodeRangeEndKey : Option Inode → List Nat
  | none => [(InodeType % 256 + 1) % 256]
  | some e => inodeEncodingKey e.inode

/-- dentryRangeEndKey mirrors the endByte computation of
DentryRocks.Range: with end absent the source takes byte(ExtendType) + 1,
the Extend tag incremented, not the Dentry tag. -/
def dentryRangeEndKey : Option Dentry → List Nat
  | none => [(ExtendType % 256 + 1) % 256]
  | some e => dentryEncodingKey e.ParentId e.Name

/-- extendRangeEndKey mirrors the endByte computation of
ExtendRocks.Range. -/
def extendRangeEndKey : Option Extend → List Nat
  | none => [(ExtendType % 256 + 1) % 256]
  | some e => extendEncodingKey e.inode

/-- multipartRangeEndKey mirrors the endByte computation of
MultipartRocks.Range. -/
def multipartRangeEndKey : Option Multipart → List Nat
  | none => [(MultipartType % 256 + 1) % 256]
  | some e => multipartEncodingKey e.key e.id

def InodeRocks.Range {σ : Type} (b : InodeRocks) (start : Inode)
    (endO : Option Inode) (cb : σ → List Nat → σ × Bool × Option Er)
    (s0 : σ) : σ × Option Er :=
  b.tree.Range (inodeEncodingKey start.inode) (inodeRangeEndKey endO) cb s0

def DentryRocks.Range {σ : Type} (b : DentryRocks) (start : Dentry)
    (endO : Option Dentry) (cb : σ → List Nat → σ × Bool × Option Er)
    (s0 : σ) : σ × Option Er :=
  b.tree.Range (dentryEncodingKey start.ParentId start.Name) (dentryRangeEndKey endO) cb s0

def ExtendRocks.Range {σ : Type} (b : ExtendRocks) (start : Extend)
    (endO : Option Extend) (cb : σ → List Nat → σ × Bool × Option Er)
    (s0 : σ) : σ × Option Er :=
  b.tree.Range (extendEncodingKey start.inode) (extendRangeEndKey endO) cb s0

def MultipartRocks.Range {σ : Type} (b : MultipartRocks) (start : Multipart)
    (endO : Option Multipart) (cb : σ → List Nat → σ × Bool × Option Er)
    (s0 : σ) : σ × Option Er :=
  b.tree.Range (multipartEncodingKey start.key start.id) (multipartRangeEndKey endO) cb s0

/-- collectCb is the visitor used in statements about scans: it gathers
every visited value, always continues and never errors. -/
def collectCb : List (List Nat) → List Nat → List (List Nat) × Bool × Option Er :=
  fun acc v => (acc ++ [v], true, none)

/-- scanPred holds of a key the iteration loop visits: the key extends
the start bound and does not compare above the end bound. -/
def scanPred (start endB k : List Nat) : Bool :=
  start.isPrefixOf k && !decide (bytesCompare endB k = Ordering.lt)

theorem rangeIterLoop_collect (start endB : List Nat) :
    ∀ (l : Db) (acc : List (List Nat)),
      rangeIterLoop collectCb start endB l acc =
        (acc ++ (l.takeWhile (fun kv => scanPred start endB kv.1)).map (·.2), none) := by
  intro l
  induction l with
  | nil => intro acc; simp [rangeIterLoop]
  | cons kv rest ih =>
    intro acc
    obtain ⟨k, v⟩ := kv
    by_cases hp : start.isPrefixOf k
    · by_cases he : bytesCompare endB k = Ordering.lt
      · simp [rangeIterLoop, hp, he, collectCb, scanPred, List.takeWhile]
      · simp [rangeIterLoop, hp, he, collectCb, scanPred, List.takeWhile, ih]
    · simp [rangeIterLoop, hp, scanPred, List.takeWhile]

theorem rangeIterLoop_count (start endB : List Nat) :
    ∀ (l : Db) (n : Nat),
      rangeIterLoop countCb start endB l n =
        (n + (l.takeWhile (fun kv => scanPred start endB kv.1)).length, none) := by
  intro l
  induction l with
  | nil => intro n; simp [rangeIterLoop]
  | cons kv rest ih =>
    intro n
    obtain ⟨k, v⟩ := kv
    by_cases hp : start.isPrefixOf k
    · by_cases he : bytesCompare endB k = Ordering.lt
      · simp [rangeIterLoop, hp, he, countCb, scanPred, List.takeWhile]
      · simp [rangeIterLoop, hp, he, countCb, scanPred, List.takeWhile, ih]
        omega
    · simp [rangeIterLoop, hp, scanPred, List.takeWhile]

/-- Once the sorted iteration reaches a key at or above start at which
scanPred fails, scanPred fails for every later key as well. -/
theorem scanPred_persists {start endB k y : List Nat}
    (hk : bytesCompare k start ≠ .lt) (hf : scanPred start endB k = false)
    (hky : bytesCompare k y = .lt) : scanPred start endB y = false := by
  unfold scanPred at hf ⊢
  rcases Bool.and_eq_false_iff.mp hf with hA | hB
  · apply Bool.and_eq_false_iff.mpr
    left
    by_contra hy
    have hy' : start.isPrefixOf y = true := by
      revert hy
      cases start.isPrefixOf y <;> simp
    have hlt : bytesCompare y k = .lt := lt_of_isPrefixOf_of_not hk hA hy'
    have : bytesCompare k k = .lt := bytesCompare_lt_trans hky hlt
    rw [bytesCompare_self] at this
    exact Ordering.noConfusion this
  · apply Bool.and_eq_false_iff.mpr
    right
    have hek : bytesCompare endB k = .lt := by
      revert hB
      by_cases h : bytesCompare endB k = Ordering.lt <;> simp [h]
    have : bytesCompare endB y = .lt := bytesCompare_lt_trans hek hky
    simp [this]

theorem takeWhile_eq_filter_of_ge {start endB : List Nat} :
    ∀ {l : Db}, List.Pairwise (fun a b => bytesCompare a.1 b.1 = Ordering.lt) l →
      (∀ kv ∈ l, bytesCompare kv.1 start ≠ .lt) →
      l.filter (fun kv => scanPred start endB kv.1) =
        l.takeWhile (fun kv => scanPred start endB kv.1) := by
  intro l
  induction l with
  | nil => intro _ _; rfl
  | cons kv rest ih =>
    intro hs hge
    obtain ⟨k, v⟩ := kv
    rw [List.pairwise_cons] at hs
    obtain ⟨hall, hrest⟩ := hs
    by_cases hp : scanPred start endB k = true
    · simp [List.filter, List.takeWhile, hp]
      exact ih hrest (fun kv hm => hge kv (List.mem_cons_of_mem _ hm))
    · have hp' : scanPred start endB k = false := by
        revert hp; cases scanPred start endB k <;> simp
      simp [List.filter, List.takeWhile, hp']
      intro a b hm
      have hlt : bytesCompare k a = .lt := hall (a, b) hm
      exact scanPred_persists (hge (k, v) (List.mem_cons_self _ _)) hp' hlt

/-- Seeking then taking while scanPred holds yields, on a sorted store,
exactly the entries satisfying scanPred. -/
theorem seek_takeWhile_eq_filter {start endB : List Nat} :
    ∀ {l : Db}, List.Pairwise (fun a b => bytesCompare a.1 b.1 = Ordering.lt) l →
      ((dbSeek start l).takeWhile (fun kv => scanPred start endB kv.1)) =
        l.filter (fun kv => scanPred start endB kv.1) := by
  intro l
  induction l with
  | nil => intro _; rfl
  | cons kv rest ih =>
    intro hs
    obtain ⟨k, v⟩ := kv
    rw [List.pairwise_cons] at hs
    obtain ⟨hall, hrest⟩ := hs
    by_cases hc : bytesCompare k start = Ordering.lt
    · have hnp : scanPred start endB k = false := by
        unfold scanPred
        apply Bool.and_eq_false_iff.mpr
        left
        by_contra hy
        have hy' : start.isPrefixOf k = true := by
          revert hy; cases start.isPrefixOf k <;> simp
        exact not_lt_of_isPrefixOf hy' hc
      simp [dbSeek, List.dropWhile, hc, List.filter, hnp]
      exact ih hrest
    · have hdrop : dbSeek start ((k, v) :: rest) = (k, v) :: rest := by
        simp [dbSeek, List.dropWhile, hc]
      rw [hdrop]
      have hge : ∀ kv ∈ (k, v) :: rest, bytesCompare kv.1 start ≠ .lt := by
        intro kv hm
        rcases List.mem_cons.mp hm with h | h
        · subst h; exact hc
        · intro hlt
          exact hc (bytesCompare_lt_trans (hall kv h) hlt)
      exact (takeWhile_eq_filter_of_ge (List.pairwise_cons.mpr ⟨hall, hrest⟩) hge).symm

theorem dbGet_put_self (r : RocksTree) (key value : List Nat)
    (h : key ≠ applyIDKey) :
    dbGet key (r.Put key value).db = some value := by
  show dbGet key (dbWrite r.db [(key, value), (applyIDKey, be8 r.currentApplyID)]) = some value
  unfold dbWrite
  simp only [List.foldl]
  rw [dbGet_dbPut_ne _ _ h, dbGet_dbPut_self]

theorem dbGet_put_apply (r : RocksTree) (key value : List Nat) :
    dbGet applyIDKey (r.Put key value).db = some (be8 r.currentApplyID) := by
  show dbGet applyIDKey (dbWrite r.db [(key, value), (applyIDKey, be8 r.currentApplyID)]) =
    some (be8 r.currentApplyID)
  unfold dbWrite
  simp only [List.foldl]
  rw [dbGet_dbPut_self]

theorem hasKey_of_nonempty {t : RocksTree} {key v : List Nat}
    (h : dbGet key t.db = some v) (hv : v ≠ []) : t.HasKey key = true := by
  unfold RocksTree.HasKey RocksTree.GetBytes
  rw [h]
  simpa [List.length_pos] using hv

theorem hasKey_false_of_absent {t : RocksTree} {key : List Nat}
    (h : dbGet key t.db = none ∨ dbGet key t.db = some []) :
    t.HasKey key = false := by
  unfold RocksTree.HasKey RocksTree.GetBytes
  rcases h with h | h <;> rw [h] <;> simp

theorem inodeEncodingKey_ne_applyIDKey (ino : Nat) :
    inodeEncodingKey ino ≠ applyIDKey := by
  intro h
  have hlen := congrArg List.length h
  simp [inodeEncodingKey, applyIDKey, be8] at hlen

theorem dentryEncodingKey_ne_applyIDKey (pid : Nat) (name : List Nat) :
    dentryEncodingKey pid name ≠ applyIDKey := by
  intro h
  have hlen := congrArg List.length h
  simp [dentryEncodingKey, applyIDKey, be8] at hlen
  omega

theorem extendEncodingKey_ne_applyIDKey (ino : Nat) :
    extendEncodingKey ino ≠ applyIDKey := by
  intro h
  have hlen := congrArg List.length h
  simp [extendEncodingKey, applyIDKey, be8] at hlen

theorem multipartEncodingKey_ne_applyIDKey (key id : List Nat) :
    multipartEncodingKey key id ≠ applyIDKey := by
  cases key with
  | nil =>
    cases id with
    | nil => decide
    | cons a as =>
      intro h
      have hlen := congrArg List.length h
      simp [multipartEncodingKey, applyIDKey] at hlen
      omega
  | cons a as =>
    intro h
    have hlen := congrArg List.length h
    simp [multipartEncodingKey, applyIDKey] at hlen
    omega

/-- C1: RocksTree.Put commits, in one atomic write batch, the data value
at the given key together with the 8-byte big-endian image of the
in-memory apply index under the reserved applyIDKey; afterwards the
persisted apply index equals the apply index that was current when the
put was issued, and that in-memory index is unchanged.  The key is
required to differ from the reserved key, which lies outside every
collection range. -/
theorem c1_put_data_and_apply_atomic (r : RocksTree) (key value : List Nat)
    (h : key ≠ applyIDKey) :
    dbGet key (r.Put key value).db = some value ∧
    dbGet applyIDKey (r.Put key value).db = some (be8 r.currentApplyID) ∧
    (r.Put key value).currentApplyID = r.currentApplyID :=
  ⟨dbGet_put_self r key value h, dbGet_put_apply r key value, rfl⟩

/-- C1 witness: a concrete put writes both entries. -/
theorem c1_put_data_and_apply_atomic_witness :
    ([1, 2] : List Nat) ≠ applyIDKey ∧
    (dbGet [1, 2] ((RocksTree.mk [] 7).Put [1, 2] [9]).db = some [9] ∧
     dbGet applyIDKey ((RocksTree.mk [] 7).Put [1, 2] [9]).db = some (be8 7) ∧
     ((RocksTree.mk [] 7).Put [1, 2] [9]).currentApplyID = 7) :=
  ⟨by decide, c1_put_data_and_apply_atomic ⟨[], 7⟩ [1, 2] [9] (by decide)⟩

/-- C2 is violated by the code: every encoder seeds its buffer with zero
bytes of initial content, so no encoded key begins with the collection
tag byte, and the Inode key is 18 bytes, not the tag plus exactly the
8-byte identifier. -/
theorem c2_keys_not_tag_first :
    inodeEncodingKey 5 =
      [0, 0, 0, 0, 0, 0, 0, 0, 0, 1, 0, 0, 0, 0, 0, 0, 0, 5] ∧
    (inodeEncodingKey 5).head? = some 0 ∧ InodeType = 1 ∧
    (inodeEncodingKey 5).length = 18 ∧
    (dentryEncodingKey 5 [97]).head? = some 0 ∧ DentryType = 2 ∧
    (extendEncodingKey 5).head? = some 0 ∧ ExtendType = 3 ∧
    (multipartEncodingKey [97] [98]).head? = some 0 ∧ MultipartType = 4 := by
  decide

/-- C3 as stated fails on the code: with stored keys [1, 5] and [2],
start [1] and end [3], the stored key [2] lies inside the inclusive
bounds yet its value [20] is never visited, because iteration is valid
only while keys extend the start bound. -/
theorem c3_range_misses_in_bounds_key :
    (RocksTree.Range ⟨[([1, 5], [10]), ([2], [20])], 0⟩ [1] [3] collectCb []).1 = [[10]] ∧
    (RocksTree.Range ⟨[([1, 5], [10]), ([2], [20])], 0⟩ [1] [3] collectCb []).2 = none ∧
    bytesCompare [1] [2] = .lt ∧ bytesCompare [2] [3] = .lt ∧
    dbGet [2] [([1, 5], [10]), ([2], [20])] = some [20] ∧
    DbSorted [([1, 5], [10]), ([2], [20])] := by
  decide

/-- C3 amended: on a sorted store, Range with a visitor that always
continues and never errors returns no error and visits, exactly once
each and in ascending store order, precisely the stored entries whose
key extends start and does not compare above end; stored keys inside
[start, end] that do not extend start are skipped. -/
theorem c3_range_visits_start_extensions (r : RocksTree) (start endB : List Nat)
    (hs : DbSorted r.db) :
    r.Range start endB collectCb [] =
      ((r.db.filter (fun kv => scanPred start endB kv.1)).map (·.2), none) := by
  unfold RocksTree.Range RocksTree.RangeWithSnap RocksTree.RangeWithIter
  rw [rangeIterLoop_collect]
  rw [seek_takeWhile_eq_filter hs]
  simp

/-- C3 witness: the amended statement evaluated on a concrete sorted
store. -/
theorem c3_range_visits_start_extensions_witness :
    DbSorted [([1, 5], [10]), ([2], [20])] ∧
    RocksTree.Range ⟨[([1, 5], [10]), ([2], [20])], 0⟩ [1] [3] collectCb [] =
      ((([([1, 5], [10]), ([2], [20])] : Db).filter
          (fun kv => scanPred [1] [3] kv.1)).map (·.2), none) :=
  ⟨by decide,
   c3_range_visits_start_extensions ⟨[([1, 5], [10]), ([2], [20])], 0⟩ [1] [3] (by decide)⟩

/-- C4 is violated by the code: with equal parents, the name [97]
precedes [97, 98] lexicographically, yet the encoded dentry keys compare
the opposite way, because the zero padding seeded into the buffer has
length 9 + len(name) and thus varies with the name. -/
theorem c4_dentry_key_order_violated :
    bytesCompare [97] [97, 98] = .lt ∧
    bytesCompare (dentryEncodingKey 0 [97]) (dentryEncodingKey 0 [97, 98]) = .gt := by
  decide

/-- C5 is violated by the code: the length field is never written, since
binary.Write rejects a plain int and the error is discarded, so the
distinct pairs (ab, c) and (a, bc) encode to the same key. -/
theorem c5_multipart_keys_collide :
    multipartEncodingKey [97, 98] [99] = multipartEncodingKey [97] [98, 99] ∧
    ¬ (([97, 98] : List Nat) = [97] ∧ ([99] : List Nat) = [98, 99]) := by
  decide

/-- C6 as stated fails on the code: HasKey treats a stored empty value as
absence, so create on a key that is present, holding an empty value, does
not return existsError and silently overwrites the stored value. -/
theorem c6_create_overwrites_present_empty :
    dbGet (inodeEncodingKey 7) [(inodeEncodingKey 7, ([] : List Nat))] = some [] ∧
    (InodeRocks.Create ⟨⟨[(inodeEncodingKey 7, [])], 5⟩⟩ ⟨7, [9]⟩).2 = none ∧
    dbGet (inodeEncodingKey 7)
      ((InodeRocks.Create ⟨⟨[(inodeEncodingKey 7, [])], 5⟩⟩ ⟨7, [9]⟩).1.tree.db) = some [9] := by
  decide

/-- C6 amended: for each typed facade, create(x) returns existsError and
leaves the state unchanged when the encoded key of x is present with a
non-empty stored value; when the key is absent, or present holding an
empty value, create behaves exactly as put, writing the serialized record
together with the apply-index co-write. -/
theorem c6_create_checks_then_writes :
    ((∀ (b : InodeRocks) (x : Inode) (v : List Nat),
        dbGet (inodeEncodingKey x.inode) b.tree.db = some v → v ≠ [] →
        InodeRocks.Create b x = (b, some existsError)) ∧
     (∀ (b : InodeRocks) (x : Inode),
        (dbGet (inodeEncodingKey x.inode) b.tree.db = none ∨
         dbGet (inodeEncodingKey x.inode) b.tree.db = some []) →
        InodeRocks.Create b x = (InodeRocks.Put b x, none) ∧
        dbGet (inodeEncodingKey x.inode) (InodeRocks.Put b x).tree.db = some x.marshalBytes ∧
        dbGet applyIDKey (InodeRocks.Put b x).tree.db = some (be8 b.tree.currentApplyID))) ∧
    ((∀ (b : DentryRocks) (x : Dentry) (v : List Nat),
        dbGet (dentryEncodingKey x.ParentId x.Name) b.tree.db = some v → v ≠ [] →
        DentryRocks.Create b x = (b, some existsError)) ∧
     (∀ (b : DentryRocks) (x : Dentry),
        (dbGet (dentryEncodingKey x.ParentId x.Name) b.tree.db = none ∨
         dbGet (dentryEncodingKey x.ParentId x.Name) b.tree.db = some []) →
        DentryRocks.Create b x = (DentryRocks.Put b x, none) ∧
        dbGet (dentryEncodingKey x.ParentId x.Name) (DentryRocks.Put b x).tree.db =
          some x.marshalBytes ∧
        dbGet applyIDKey (DentryRocks.Put b x).tree.db = some (be8 b.tree.currentApplyID))) ∧
    ((∀ (b : ExtendRocks) (x : Extend) (v : List Nat),
        dbGet (extendEncodingKey x.inode) b.tree.db = some v → v ≠ [] →
        ExtendRocks.Create b x = (b, some existsError)) ∧
     (∀ (b : ExtendRocks) (x : Extend),
        (dbGet (extendEncodingKey x.inode) b.tree.db = none ∨
         dbGet (extendEncodingKey x.inode) b.tree.db = some []) →
        ExtendRocks.Create b x = (ExtendRocks.Put b x, none) ∧
        dbGet (extendEncodingKey x.inode) (ExtendRocks.Put b x).tree.db = some x.bytesData ∧
        dbGet applyIDKey (ExtendRocks.Put b x).tree.db = some (be8 b.tree.currentApplyID))) ∧
    ((∀ (b : MultipartRocks) (x : Multipart) (v : List Nat),
        dbGet (multipartEncodingKey x.key x.id) b.tree.db = some v → v ≠ [] →
        MultipartRocks.Create b x = (b, some existsError)) ∧
     (∀ (b : MultipartRocks) (x : Multipart),
        (dbGet (multipartEncodingKey x.key x.id) b.tree.db = none ∨
         dbGet (multipartEncodingKey x.key x.id) b.tree.db = some []) →
        MultipartRocks.Create b x = (MultipartRocks.Put b x, none) ∧
        dbGet (multipartEncodingKey x.key x.id) (MultipartRocks.Put b x).tree.db =
          some x.bytesData ∧
        dbGet applyIDKey (MultipartRocks.Put b x).tree.db = some (be8 b.tree.currentApplyID))) := by
  refine ⟨⟨?_, ?_⟩, ⟨?_, ?_⟩, ⟨?_, ?_⟩, ⟨?_, ?_⟩⟩
  · intro b x v hv hne
    simp only [InodeRocks.Create]
    rw [hasKey_of_nonempty hv hne]
    simp
  · intro b x h
    simp only [InodeRocks.Create, InodeRocks.Put]
    rw [hasKey_false_of_absent h]
    simp only [Bool.false_eq_true, if_false]
    exact ⟨trivial,
      dbGet_put_self _ _ _ (inodeEncodingKey_ne_applyIDKey x.inode),
      dbGet_put_apply _ _ _⟩
  · intro b x v hv hne
    simp only [DentryRocks.Create]
    rw [hasKey_of_nonempty hv hne]
    simp
  · intro b x h
    simp only [DentryRocks.Create, DentryRocks.Put]
    rw [hasKey_false_of_absent h]
    simp only [Bool.false_eq_true, if_false]
    exact ⟨trivial,
      dbGet_put_self _ _ _ (dentryEncodingKey_ne_applyIDKey x.ParentId x.Name),
      dbGet_put_apply _ _ _⟩
  · intro b x v hv hne
    simp only [ExtendRocks.Create]
    rw [hasKey_of_nonempty hv hne]
    simp
  · intro b x h
    simp only [ExtendRocks.Create, ExtendRocks.Put]
    rw [hasKey_false_of_absent h]
    simp only [Bool.false_eq_true, if_false]
    exact ⟨trivial,
      dbGet_put_self _ _ _ (extendEncodingKey_ne_applyIDKey x.inode),
      dbGet_put_apply _ _ _⟩
  · intro b x v hv hne
    simp only [MultipartRocks.Create]
    rw [hasKey_of_nonempty hv hne]
    simp
  · intro b x h
    simp only [MultipartRocks.Create, MultipartRocks.Put]
    rw [hasKey_false_of_absent h]
    simp only [Bool.false_eq_true, if_false]
    exact ⟨trivial,
      dbGet_put_self _ _ _ (multipartEncodingKey_ne_applyIDKey x.key x.id),
      dbGet_put_apply _ _ _⟩

/-- C6 witness: a concrete occupied key makes create answer existsError
and keep the state. -/
theorem c6_create_checks_then_writes_witness :
    dbGet (inodeEncodingKey 7)
      (InodeRocks.mk ⟨[(inodeEncodingKey 7, [1])], 5⟩).tree.db = some [1] ∧
    ([1] : List Nat) ≠ [] ∧
    InodeRocks.Create ⟨⟨[(inodeEncodingKey 7, [1])], 5⟩⟩ ⟨7, [9]⟩ =
      (⟨⟨[(inodeEncodingKey 7, [1])], 5⟩⟩, some existsError) :=
  ⟨by decide, by decide,
   c6_create_checks_then_writes.1.1 ⟨⟨[(inodeEncodingKey 7, [1])], 5⟩⟩ ⟨7, [9]⟩ [1]
     (by decide) (by decide)⟩

/-- C7 is violated by the code for Dentry: with end absent,
DentryRocks.Range bounds the scan by the Extend boundary byte, tag 3
incremented to 4, rather than the Dentry boundary byte 3; the last
conjunct exhibits the bound actually passed to the byte-level Range. -/
theorem c7_dentry_range_uses_extend_boundary :
    dentryRangeEndKey none = [4] ∧
    [(DentryType % 256 + 1) % 256] = [3] ∧
    dentryRangeEndKey none ≠ [(DentryType % 256 + 1) % 256] ∧
    (∀ (σ : Type) (b : DentryRocks) (start : Dentry)
       (cb : σ → List Nat → σ × Bool × Option Er) (s0 : σ),
       DentryRocks.Range b start none cb s0 =
         b.tree.Range (dentryEncodingKey start.ParentId start.Name) [4] cb s0) :=
  ⟨by decide, by decide, by decide, fun _ _ _ _ _ => rfl⟩

/-- C8: each facade delete removes exactly the encoded key of the given
identity and nothing else: the in-memory apply index, the persisted
value under the reserved applyIDKey and every other stored key are
unchanged, and no apply-index write joins the delete. -/
theorem c8_delete_frame_effect :
    (∀ (b : InodeRocks) (ino : Nat), DbSorted b.tree.db →
       (InodeRocks.Delete b ino).tree.currentApplyID = b.tree.currentApplyID ∧
       dbGet (inodeEncodingKey ino) (InodeRocks.Delete b ino).tree.db = none ∧
       (∀ k', k' ≠ inodeEncodingKey ino →
          dbGet k' (InodeRocks.Delete b ino).tree.db = dbGet k' b.tree.db) ∧
       dbGet applyIDKey (InodeRocks.Delete b ino).tree.db = dbGet applyIDKey b.tree.db) ∧
    (∀ (b : DentryRocks) (pid : Nat) (name : List Nat), DbSorted b.tree.db →
       (DentryRocks.Delete b pid name).tree.currentApplyID = b.tree.currentApplyID ∧
       dbGet (dentryEncodingKey pid name) (DentryRocks.Delete b pid name).tree.db = none ∧
       (∀ k', k' ≠ dentryEncodingKey pid name →
          dbGet k' (DentryRocks.Delete b pid name).tree.db = dbGet k' b.tree.db) ∧
       dbGet applyIDKey (DentryRocks.Delete b pid name).tree.db =
         dbGet applyIDKey b.tree.db) ∧
    (∀ (b : ExtendRocks) (ino : Nat), DbSorted b.tree.db →
       (ExtendRocks.Delete b ino).tree.currentApplyID = b.tree.currentApplyID ∧
       dbGet (extendEncodingKey ino) (ExtendRocks.Delete b ino).tree.db = none ∧
       (∀ k', k' ≠ extendEncodingKey ino →
          dbGet k' (ExtendRocks.Delete b ino).tree.db = dbGet k' b.tree.db) ∧
       dbGet applyIDKey (ExtendRocks.Delete b ino).tree.db = dbGet applyIDKey b.tree.db) ∧
    (∀ (b : MultipartRocks) (key id : List Nat), DbSorted b.tree.db →
       (MultipartRocks.Delete b key id).tree.currentApplyID = b.tree.currentApplyID ∧
       dbGet (multipartEncodingKey key id) (MultipartRocks.Delete b key id).tree.db = none ∧
       (∀ k', k' ≠ multipartEncodingKey key id →
          dbGet k' (MultipartRocks.Delete b key id).tree.db = dbGet k' b.tree.db) ∧
       dbGet applyIDKey (MultipartRocks.Delete b key id).tree.db =
         dbGet applyIDKey b.tree.db) := by
  refine ⟨?_, ?_, ?_, ?_⟩
  · intro b ino hs
    exact ⟨rfl, dbGet_dbDelete_self hs,
      fun k' hk => dbGet_dbDelete_ne _ hk,
      dbGet_dbDelete_ne _ (inodeEncodingKey_ne_applyIDKey ino).symm⟩
  · intro b pid name hs
    exact ⟨rfl, dbGet_dbDelete_self hs,
      fun k' hk => dbGet_dbDelete_ne _ hk,
      dbGet_dbDelete_ne _ (dentryEncodingKey_ne_applyIDKey pid name).symm⟩
  · intro b ino hs
    exact ⟨rfl, dbGet_dbDelete_self hs,
      fun k' hk => dbGet_dbDelete_ne _ hk,
      dbGet_dbDelete_ne _ (extendEncodingKey_ne_applyIDKey ino).symm⟩
  · intro b key id hs
    exact ⟨rfl, dbGet_dbDelete_self hs,
      fun k' hk => dbGet_dbDelete_ne _ hk,
      dbGet_dbDelete_ne _ (multipartEncodingKey_ne_applyIDKey key id).symm⟩

/-- C8 witness: a concrete delete on a sorted two-entry store. -/
theorem c8_delete_frame_effect_witness :
    DbSorted (InodeRocks.mk ⟨[(inodeEncodingKey 3, [7]), (applyIDKey, [8])], 4⟩).tree.db ∧
    ((InodeRocks.Delete ⟨⟨[(inodeEncodingKey 3, [7]), (applyIDKey, [8])], 4⟩⟩ 3).tree.currentApplyID =
       (InodeRocks.mk ⟨[(inodeEncodingKey 3, [7]), (applyIDKey, [8])], 4⟩).tree.currentApplyID ∧
     dbGet (inodeEncodingKey 3)
       (InodeRocks.Delete ⟨⟨[(inodeEncodingKey 3, [7]), (applyIDKey, [8])], 4⟩⟩ 3).tree.db = none ∧
     (∀ k', k' ≠ inodeEncodingKey 3 →
        dbGet k' (InodeRocks.Delete ⟨⟨[(inodeEncodingKey 3, [7]), (applyIDKey, [8])], 4⟩⟩ 3).tree.db =
          dbGet k' (InodeRocks.mk ⟨[(inodeEncodingKey 3, [7]), (applyIDKey, [8])], 4⟩).tree.db) ∧
     dbGet applyIDKey
       (InodeRocks.Delete ⟨⟨[(inodeEncodingKey 3, [7]), (applyIDKey, [8])], 4⟩⟩ 3).tree.db =
         dbGet applyIDKey (InodeRocks.mk ⟨[(inodeEncodingKey 3, [7]), (applyIDKey, [8])], 4⟩).tree.db) :=
  ⟨by decide,
   c8_delete_frame_effect.1 ⟨⟨[(inodeEncodingKey 3, [7]), (applyIDKey, [8])], 4⟩⟩ 3 (by decide)⟩

/-- C9: the Inode and Extend key encodings are strictly monotone in the
64-bit identifier: the seeded zero padding has fixed length there, so the
8-byte big-endian field decides the byte order. -/
theorem c9_inode_extend_key_monotone (a b : Nat) (hab : a < b) (hb : b < 2 ^ 64) :
    bytesCompare (inodeEncodingKey a) (inodeEncodingKey b) = .lt ∧
    bytesCompare (extendEncodingKey a) (extendEncodingKey b) = .lt := by
  have h := be8_lt hab hb
  constructor
  · simp only [inodeEncodingKey, bytesCompare_append]
    exact h
  · simp only [extendEncodingKey, bytesCompare_append]
    exact h

/-- C9 witness: concrete identifiers 1 and 2. -/
theorem c9_inode_extend_key_monotone_witness :
    1 < 2 ∧ 2 < 2 ^ 64 ∧
    (bytesCompare (inodeEncodingKey 1) (inodeEncodingKey 2) = .lt ∧
     bytesCompare (extendEncodingKey 1) (extendEncodingKey 2) = .lt) :=
  ⟨by decide, by norm_num, c9_inode_extend_key_monotone 1 2 (by decide) (by norm_num)⟩

/-- C10: Count on a snapshot returns the number of entries the scan
visits together with no error; the 0-with-error branch of the source is
unreachable here because the counting callback never errors and the
iteration loop surfaces no other failure. -/
theorem c10_snapshot_count_ok (s : RocksSnapShot) (tp : TreeType) :
    RocksSnapShot.Count s tp = (((RocksSnapShot.Range s tp collectCb []).1).length, none) := by
  unfold RocksSnapShot.Count RocksSnapShot.Range RocksTree.RangeWithSnap RocksTree.RangeWithIter
  rw [rangeIterLoop_count, rangeIterLoop_collect]
  simp

end BtreeRocks
